import Mathlib

/-
  Verification development for protek506logger.py, a serial data logger for
  the Protek 506 digital multimeter.

  Text is embedded as lists of Unicode code points (List Nat); the payload
  of every frame is ASCII by construction (the program decodes frame bytes
  with the ASCII codec, dropping non-ASCII bytes), so ASCII case folding
  faithfully models the case-insensitive matching done by the program.
-/

namespace Protek506

/-- Code points of a string literal, used to write concrete text compactly. -/
def codes (s : String) : List Nat := s.data.map Char.toNat

/-- Code point of a single character. -/
def chCode (c : Char) : Nat := c.toNat

/-- Python str.isspace for the ASCII range: 9-13 (tab..carriage return) and
    28-32 (file/group/record/unit separators and space); str.strip removes
    exactly these characters at either end of an ASCII string. -/
def isSpace (n : Nat) : Bool := (9 ≤ n && n ≤ 13) || (28 ≤ n && n ≤ 32)

/-- ASCII decimal digit test, the regex class [0-9]. -/
def isDigit (n : Nat) : Bool := 48 ≤ n && n ≤ 57

/-- ASCII case folding: uppercase A-Z (65-90) maps to a-z (97-122); models
    re.IGNORECASE on the ASCII payloads produced by the decoder. -/
def foldCode (n : Nat) : Nat := if 65 ≤ n ∧ n ≤ 90 then n + 32 else n

/-- Python str.lstrip: drop leading whitespace. -/
def lstrip (s : List Nat) : List Nat := s.dropWhile isSpace

/-- Python str.rstrip: drop trailing whitespace. -/
def rstrip (s : List Nat) : List Nat := (s.reverse.dropWhile isSpace).reverse

/-- Python str.strip: drop whitespace at both ends. -/
def strip (s : List Nat) : List Nat := rstrip (lstrip s)

end Protek506

namespace Protek506

/-- MODE_MAP from the source: first-character code to short mode name. -/
def MODE_MAP : List (Nat × List Nat) :=
  [(chCode 'A', codes "AC"),
   (chCode 'B', codes "DIO"),
   (chCode 'C', codes "CAP"),
   (chCode 'D', codes "DC"),
   (chCode 'F', codes "FR"),
   (chCode 'I', codes "IND"),
   (chCode 'L', codes "DIO"),
   (chCode 'R', codes "RES"),
   (chCode 'T', codes "TEMP")]

/-- MODE_MAP.get(mode_code, UNKNOWN): total lookup with a sentinel default. -/
def modeGet (n : Nat) : List Nat :=
  match MODE_MAP.lookup n with
  | some m => m
  | none => codes "UNKNOWN"

/-- first_byte_chars = set(MODE_MAP.keys()). -/
def first_byte_chars : List Nat := MODE_MAP.map Prod.fst

end Protek506

namespace Protek506

/-! ## Frame reader

read_data_from_serial sends the trigger byte, reads until the terminator
byte 13 (carriage return), and returns None on timeout or an incomplete
frame; otherwise it ASCII-decodes the bytes before the terminator with
errors=ignore (bytes at or above 128 are dropped) and strips whitespace. -/

/-- read_data_from_serial, as a function of the bytes the read returned.
    Python: if not line or line[-1] != 13 return None, else
    line[:-1].decode(ascii, errors=ignore).strip(). -/
def read_data_from_serial (line : List Nat) : Option (List Nat) :=
  if line.getLast? = some 13 then
    some (strip ((line.dropLast).filter (fun b => b < 128)))
  else none

/-! ## Record parser

reading_pattern is the regex
  ([-+]?[0-9]*.?[0-9]+[kmuz]?|.OL|-OL|OL|OPEN|SHORT|High|Low|----)
compiled with re.IGNORECASE (the two dots stand for an escaped literal dot
and for the quantified optional dot in the numeric branch).  It is embedded
as an explicit scanner: at every position the alternatives are tried in
the order of the pattern, the numeric branch first, and positions are tried
left to right, exactly like re.search. -/

/-- The literal alternatives of reading_pattern, in pattern order. -/
def litTokens : List (List Nat) :=
  [codes ".OL", codes "-OL", codes "OL", codes "OPEN", codes "SHORT",
   codes "High", codes "Low", codes "----"]

/-- Case-insensitive list-of-codes match of a token against the start of
    the text, ASCII folding both sides. -/
def ciPre : List Nat → List Nat → Bool
  | [], _ => true
  | _ :: _, [] => false
  | t :: ts, c :: cs => (foldCode t == foldCode c) && ciPre ts cs

/-- First literal alternative (in pattern order) matching at the start of
    the text; returns the matched text verbatim and the rest. -/
def litAtAux : List (List Nat) → List Nat → Option (List Nat × List Nat)
  | [], _ => none
  | t :: ts, s => if ciPre t s then some (s.take t.length, s.drop t.length) else litAtAux ts s

def litAt (s : List Nat) : Option (List Nat × List Nat) := litAtAux litTokens s

/-- The regex fragment [0-9]*.?[0-9]+ (optional dot) under greedy matching
    with backtracking: maximal leading digits, then a dot only when at
    least one digit follows it.  Returns the match and the rest. -/
def numBody (s : List Nat) : Option (List Nat × List Nat) :=
  match s.dropWhile isDigit with
  | c :: rest =>
    if c = 46 then
      if rest.takeWhile isDigit = [] then
        (if s.takeWhile isDigit = [] then none
         else some (s.takeWhile isDigit, s.dropWhile isDigit))
      else some (s.takeWhile isDigit ++ c :: rest.takeWhile isDigit, rest.dropWhile isDigit)
    else
      (if s.takeWhile isDigit = [] then none
       else some (s.takeWhile isDigit, s.dropWhile isDigit))
  | [] =>
    (if s.takeWhile isDigit = [] then none
     else some (s.takeWhile isDigit, s.dropWhile isDigit))

/-- The single-letter SI magnitude suffix class [kmuz] under IGNORECASE. -/
def isSuffixChar (n : Nat) : Bool :=
  (foldCode n == 107) || (foldCode n == 109) || (foldCode n == 117) || (foldCode n == 122)

/-- The optional greedy [kmuz]? suffix after the numeric body. -/
def suffixStep (m r : List Nat) : Option (List Nat × List Nat) :=
  match r with
  | c2 :: rest2 =>
    if isSuffixChar c2 then some (m ++ [c2], rest2) else some (m, c2 :: rest2)
  | [] => some (m, [])

/-- The numeric alternative [-+]?[0-9]*.?[0-9]+[kmuz]? at the start of the
    text (45 is the minus sign, 43 the plus sign); a consumed sign whose
    body fails cannot backtrack into a match because the body cannot start
    at a sign character. -/
def numAt (s : List Nat) : Option (List Nat × List Nat) :=
  match s with
  | [] => none
  | c :: rest =>
    match (if c = 45 ∨ c = 43
           then (numBody rest).map (fun p => (c :: p.1, p.2))
           else numBody (c :: rest)) with
    | none => none
    | some (m, r) => suffixStep m r

/-- One attempt of the whole alternation at a fixed position, in pattern
    order: the numeric branch first, then the literal tokens. -/
def tryAt (s : List Nat) : Option (List Nat × List Nat) :=
  match numAt s with
  | some r => some r
  | none => litAt s

/-- Modelled from the spec: the same alternation, but with the literal
    tokens taking precedence over the numeric branch when both could start
    at the same position.  Used to compare the code's matcher against the
    spec's description of the tie-break. -/
def tryAtSpec (s : List Nat) : Option (List Nat × List Nat) :=
  match litAt s with
  | some r => some r
  | none => numAt s

/-- reading_pattern.search: leftmost position where some alternative
    matches; yields the matched text and the text after the match. -/
def reading_search : List Nat → Option (List Nat × List Nat)
  | [] => none
  | c :: rest =>
    match tryAt (c :: rest) with
    | some r => some r
    | none => reading_search rest

/-- Modelled from the spec: leftmost search with the literal-first
    tie-break, for comparison with reading_search. -/
def readingSearchSpec : List Nat → Option (List Nat × List Nat)
  | [] => none
  | c :: rest =>
    match tryAtSpec (c :: rest) with
    | some r => some r
    | none => readingSearchSpec rest

/-- The reading/units split of a payload: the match text becomes the
    reading and the text after the match, stripped, becomes the units;
    with no match the reading is empty and the whole payload, stripped,
    becomes the units (source lines 235-242). -/
def extractReading (rest : List Nat) : List Nat × List Nat :=
  match reading_search rest with
  | some (r, a) => (r, strip a)
  | none => ([], strip rest)

/-- units.replace of the mangled degree marker: every occurrence of 94, 67
    (the characters caret C) becomes 176, 67 (degree sign, C); Python
    str.replace scans left to right without overlap, which for this
    two-character pattern is this recursion (source lines 244-246). -/
def fixDegrees : List Nat → List Nat
  | [] => []
  | [a] => [a]
  | a :: b :: rest =>
    if a = 94 ∧ b = 67 then 176 :: 67 :: fixDegrees rest
    else a :: fixDegrees (b :: rest)

/-- A parsed record: short mode name, verbatim reading text, units text. -/
structure DMMRecord where
  mode : List Nat
  reading : List Nat
  units : List Nat
deriving DecidableEq

/-- The per-frame parsing step of the loop body (source lines 217-246):
    reject when the decoded text is empty or its first character is not a
    MODE_MAP key; otherwise map the first character through MODE_MAP, strip
    the remainder, split it into reading and units, and fix the degree
    marker in the units. -/
def parse_frame (data : List Nat) : Option DMMRecord :=
  match data with
  | [] => none
  | n :: rest0 =>
    if n ∈ first_byte_chars then
      let er := extractReading (strip rest0)
      some ⟨modeGet n, er.1, fixDegrees er.2⟩
    else none

/-! ## Durable sink and acquisition cycle -/

/-- A persisted row: five text fields. -/
abbrev Row := List (List Nat)

/-- The store contents: a sequence of rows. -/
abbrev Store := List Row

/-- The fixed 5-field header row (source line 200). -/
def header : Row :=
  [codes "date", codes "time", codes "mode", codes "reading", codes "units"]

/-- Opening the store (source lines 194-200): the file is opened in append
    mode and the header row is written exactly when the file is empty. -/
def openStore (content : Store) : Store :=
  if content = [] then [header] else content

/-- The row written for an accepted record (source line 249). -/
def rowOf (d t : List Nat) (r : DMMRecord) : Row :=
  [d, t, r.mode, r.reading, r.units]

/-- One loop iteration's effect on the store, given the decoded frame text:
    rejected frames append nothing, accepted frames append one row. -/
def cycleData (store : Store) (data : List Nat) (d t : List Nat) : Store :=
  match parse_frame data with
  | none => store
  | some r => store ++ [rowOf d t r]

/-- One loop iteration's effect on the store, given the raw bytes the
    serial read returned. -/
def cycle (store : Store) (line : List Nat) (d t : List Nat) : Store :=
  match read_data_from_serial line with
  | none => store
  | some data => cycleData store data d t

/-- One program run: open the store, then run the loop over the given
    per-cycle inputs (serial bytes and timestamp strings). -/
def cycleStep (s : Store) (inp : List Nat × List Nat × List Nat) : Store :=
  cycle s inp.1 inp.2.1 inp.2.2

def runSession (content : Store) (inputs : List (List Nat × List Nat × List Nat)) : Store :=
  inputs.foldl cycleStep (openStore content)

/-- Several program runs over the same target file, starting empty. -/
def runProgram (sessions : List (List (List Nat × List Nat × List Nat))) : Store :=
  sessions.foldl runSession []

/-! ## Cycle event traces, for the durability ordering -/

/-- The externally visible I/O actions of one loop iteration. -/
inductive Event where
  | trigger
  | readFrame
  | writeRow
  | flushStore
  | doSleep
deriving DecidableEq

/-- The store actions after parsing: a rejected frame only sleeps, an
    accepted record is written and flushed before the sleep. -/
def acceptEvents : Option DMMRecord → List Event
  | none => [Event.doSleep]
  | some _ => [Event.writeRow, Event.flushStore, Event.doSleep]

/-- The actions after the read: an empty cycle only sleeps, otherwise the
    frame goes through the parser. -/
def frameEvents : Option (List Nat) → List Event
  | none => [Event.doSleep]
  | some data => acceptEvents (parse_frame data)

/-- The I/O actions of one iteration in program order: the trigger byte is
    written and the response read inside read_data_from_serial; a rejected
    or empty cycle just sleeps; an accepted record is written and flushed
    before the sleep that precedes the next trigger (source lines 212-252). -/
def cycleEvents (line : List Nat) : List Event :=
  Event.trigger :: Event.readFrame :: frameEvents (read_data_from_serial line)

/-- The I/O trace of the whole loop over a list of per-cycle serial reads. -/
def loopEvents (lines : List (List Nat)) : List Event :=
  lines.flatMap cycleEvents

/-! ## Port selector -/

/-- An enumerated serial port: device identifier, optional description and
    optional manufacturer text (None in pyserial maps to none). -/
structure PortInfo where
  device : List Nat
  description : Option (List Nat)
  manufacturer : Option (List Nat)
deriving DecidableEq

/-- Python substring containment (the in operator on str). -/
def containsSub (pat : List Nat) : List Nat → Bool
  | [] => pat.isEmpty
  | s@(_ :: rest) => pat.isPrefixOf s || containsSub pat rest

/-- str.lower() over ASCII text. -/
def foldCodes (s : List Nat) : List Nat := s.map foldCode

/-- The filter on enumerated ports (source lines 117-121): the lowercased
    device name contains usb, acm or serial, or starts with com. -/
def passesFilter (p : PortInfo) : Bool :=
  containsSub (codes "usb") (foldCodes p.device) ||
  containsSub (codes "acm") (foldCodes p.device) ||
  containsSub (codes "serial") (foldCodes p.device) ||
  (codes "com").isPrefixOf (foldCodes p.device)

/-- The priority test (source lines 122-123): FTDI occurs, case
    sensitively, in the manufacturer or in the description; a missing field
    is falsy in Python and fails the test. -/
def isFTDI (p : PortInfo) : Bool :=
  (match p.manufacturer with
   | some m => containsSub (codes "FTDI") m
   | none => false) ||
  (match p.description with
   | some d₀ => containsSub (codes "FTDI") d₀
   | none => false)

/-- The candidate-list building step of the loop (source lines 116-126):
    a filtered FTDI port is inserted at the front, any other filtered port
    is appended at the back. -/
def candStep (cand : List PortInfo) (p : PortInfo) : List PortInfo :=
  if passesFilter p then (if isFTDI p then p :: cand else cand ++ [p]) else cand

def buildCandidates (ports : List PortInfo) : List PortInfo :=
  ports.foldl candStep []

/-- Strict lexicographic comparison of code lists: Python string less-than,
    used as the sort key comparison on device identifiers. -/
def ltCodes : List Nat → List Nat → Bool
  | [], [] => false
  | [], _ :: _ => true
  | _ :: _, [] => false
  | a :: as, b :: bs => a < b || (a = b && ltCodes as bs)

/-- Stable insertion by strictly smaller device identifier: an element
    inserted later goes before elements with an equal identifier that come
    later in the original enumeration order.  Together with sortPorts this
    is the unique stable ascending sort that Python's sorted produces. -/
def insertPort (p : PortInfo) : List PortInfo → List PortInfo
  | [] => [p]
  | q :: qs => if ltCodes q.device p.device then q :: insertPort p qs else p :: q :: qs

/-- sorted(ports, key device): stable ascending sort by device identifier. -/
def sortPorts (ports : List PortInfo) : List PortInfo :=
  ports.foldr insertPort []

/-- find_protek_port (source lines 111-144): sort the enumeration by device
    identifier, build the candidate list, fail with a diagnostic over the
    whole enumeration when it is empty, otherwise select the first
    candidate's device. -/
def find_protek_port (ports : List PortInfo) : Except (List PortInfo) (List Nat) :=
  match buildCandidates (sortPorts ports) with
  | [] => Except.error (sortPorts ports)
  | sel :: _ => Except.ok sel.device

/-- Concrete enumeration for the spec's selection scenario: three filtered
    candidates in identifier order, the first and third FTDI-tagged. -/
def portA : PortInfo := ⟨codes "COM1", none, some (codes "FTDI")⟩

def portB : PortInfo := ⟨codes "COM2", some (codes "USB Serial"), none⟩

def portC : PortInfo := ⟨codes "COM3", none, some (codes "FTDI")⟩

end Protek506

/-! ## Generic list helpers -/

theorem lookup_mem_snd {β : Type} (l : List (Nat × β)) (a : Nat) (b : β)
    (h : l.lookup a = some b) : b ∈ l.map Prod.snd := by
  induction l with
  | nil => simp [List.lookup] at h
  | cons hd tl ih =>
    obtain ⟨k, v⟩ := hd
    rw [List.lookup] at h
    by_cases hc : a == k
    · rw [hc] at h
      simp at h
      simp [h]
    · rw [Bool.not_eq_true] at hc
      rw [hc] at h
      simpa using Or.inr (ih h)

theorem lookup_eq_none_of_not_mem {β : Type} (l : List (Nat × β)) (a : Nat)
    (h : a ∉ l.map Prod.fst) : l.lookup a = none := by
  induction l with
  | nil => rfl
  | cons hd tl ih =>
    obtain ⟨k, v⟩ := hd
    simp only [List.map_cons, List.mem_cons] at h
    push_neg at h
    rw [List.lookup]
    have hk : (a == k) = false := by simpa using h.1
    rw [hk]
    exact ih h.2

namespace Protek506

/-- A lookup miss on a key outside MODE_MAP's domain yields UNKNOWN. -/
theorem modeGet_of_not_mem (n : Nat) (h : n ∉ first_byte_chars) :
    modeGet n = codes "UNKNOWN" := by
  unfold modeGet
  rw [lookup_eq_none_of_not_mem MODE_MAP n h]

theorem modeGet_vals (n : Nat) :
    modeGet n = codes "UNKNOWN" ∨ modeGet n ∈ MODE_MAP.map Prod.snd := by
  by_cases h : n ∈ first_byte_chars
  · right
    have hall : ∀ m ∈ first_byte_chars, modeGet m ∈ MODE_MAP.map Prod.snd := by decide
    exact hall n h
  · left
    exact modeGet_of_not_mem n h

/-- C6: Mode mapping is a total lookup on a fixed closed table: the lookup
    for the code of D yields DC, for R yields RES, any code outside the
    domain (such as Z) yields the sentinel UNKNOWN, and every lookup result
    is either the sentinel or a table value, so the lookup never fails. -/
theorem mode_map_total :
    modeGet (chCode 'D') = codes "DC" ∧
    modeGet (chCode 'R') = codes "RES" ∧
    modeGet (chCode 'Z') = codes "UNKNOWN" ∧
    (∀ n, n ∉ first_byte_chars → modeGet n = codes "UNKNOWN") ∧
    (∀ n, modeGet n = codes "UNKNOWN" ∨ modeGet n ∈ MODE_MAP.map Prod.snd) :=
  ⟨by decide, by decide, by decide, modeGet_of_not_mem, modeGet_vals⟩

/-- Witness for C6 at the concrete off-domain code 100 (lowercase d). -/
theorem mode_map_total_witness : modeGet 100 = codes "UNKNOWN" :=
  mode_map_total.2.2.2.1 100 (by decide)

/-- The mode-code gate on the decoded text, shared shape of both parts of
    the gate theorem. -/
theorem cycleData_gate (store : Store) (data : List Nat) (d t : List Nat)
    (h : ∀ n, data.head? = some n → n ∉ first_byte_chars) :
    cycleData store data d t = store := by
  cases data with
  | nil => rfl
  | cons n rest0 =>
    have hn := h n rfl
    have hp : parse_frame (n :: rest0) = none := by
      simp only [parse_frame]
      rw [if_neg hn]
    simp only [cycleData, hp]

/-- C4: A frame whose decoded, trimmed text is empty or whose first
    character is not a MODE_MAP key produces no record: the cycle leaves
    the store unchanged, both as a function of the decoded text and as a
    function of the raw serial bytes. -/
theorem mode_gate :
    (∀ (store : Store) (data d t : List Nat),
      (∀ n, data.head? = some n → n ∉ first_byte_chars) →
      cycleData store data d t = store) ∧
    (∀ (store : Store) (line d t data : List Nat),
      read_data_from_serial line = some data →
      (∀ n, data.head? = some n → n ∉ first_byte_chars) →
      cycle store line d t = store) := by
  refine ⟨cycleData_gate, ?_⟩
  intro store line d t data hr h
  unfold cycle
  rw [hr]
  exact cycleData_gate store data d t h

/-- Witness for C4: a frame starting with X (not a mode code) is discarded,
    both at the decoded-text level and for the raw byte line X 1 CR. -/
theorem mode_gate_witness :
    cycleData [header] (codes "X1") (codes "d") (codes "t") = [header] ∧
    cycle [header] [88, 49, 13] (codes "d") (codes "t") = [header] :=
  ⟨mode_gate.1 [header] (codes "X1") (codes "d") (codes "t") (by decide),
   mode_gate.2 [header] [88, 49, 13] (codes "d") (codes "t") (codes "X1") (by decide)
     (by decide)⟩

/-! ## Degree-glyph post-processing -/

theorem containsSub_cons_false {pat : List Nat} {x : Nat} {r : List Nat}
    (h : containsSub pat (x :: r) = false) : containsSub pat r = false := by
  simp only [containsSub, Bool.or_eq_false_iff] at h
  exact h.2

theorem fixDegrees_marker (b : List Nat) :
    fixDegrees (94 :: 67 :: b) = 176 :: 67 :: fixDegrees b := by
  simp [fixDegrees]

theorem fixDegrees_cons2 (a b : Nat) (rest : List Nat) (h : ¬(a = 94 ∧ b = 67)) :
    fixDegrees (a :: b :: rest) = a :: fixDegrees (b :: rest) := by
  simp only [fixDegrees]
  rw [if_neg h]

theorem fixDegrees_id (u : List Nat) (h : containsSub [94, 67] u = false) :
    fixDegrees u = u := by
  induction u with
  | nil => rfl
  | cons x u' ih =>
    cases u' with
    | nil => rfl
    | cons y u'' =>
      have hcond : ¬(x = 94 ∧ y = 67) := by
        intro hxy
        simp [containsSub, List.isPrefixOf, hxy.1, hxy.2] at h
      have ht : containsSub [94, 67] (y :: u'') = false := containsSub_cons_false h
      rw [fixDegrees_cons2 x y u'' hcond, ih ht]

theorem fixDegrees_split (a b : List Nat) (h : containsSub [94, 67] a = false) :
    fixDegrees (a ++ 94 :: 67 :: b) = a ++ 176 :: 67 :: fixDegrees b := by
  induction a with
  | nil => simpa using fixDegrees_marker b
  | cons x a' ih =>
    cases a' with
    | nil =>
      have hcond : ¬(x = 94 ∧ (94 : Nat) = 67) := by omega
      simp only [List.cons_append, List.nil_append]
      rw [fixDegrees_cons2 x 94 (67 :: b) hcond, fixDegrees_marker b]
    | cons y a'' =>
      have hcond : ¬(x = 94 ∧ y = 67) := by
        intro hxy
        simp [containsSub, List.isPrefixOf, hxy.1, hxy.2] at h
      have ht : containsSub [94, 67] (y :: a'') = false := containsSub_cons_false h
      simp only [List.cons_append]
      rw [fixDegrees_cons2 x y (a'' ++ 94 :: 67 :: b) hcond]
      have hih := ih ht
      simp only [List.cons_append] at hih
      rw [hih]

/-- C9: If a units string contains the mangled degree marker (caret C),
    every occurrence of the marker is rewritten to the degree-Celsius glyph
    and all characters outside marker occurrences pass through unchanged;
    a units string without the marker is returned unchanged. -/
theorem degree_fix :
    (∀ u, containsSub (codes "^C") u = false → fixDegrees u = u) ∧
    (∀ a b, containsSub (codes "^C") a = false →
      fixDegrees (a ++ codes "^C" ++ b) = a ++ codes "°C" ++ fixDegrees b) := by
  have hm : codes "^C" = [94, 67] := by decide
  have hg : codes "°C" = [176, 67] := by decide
  constructor
  · intro u hu
    rw [hm] at hu
    exact fixDegrees_id u hu
  · intro a b hab
    rw [hm] at hab ⊢
    rw [hg]
    simpa using fixDegrees_split a b hab

/-- Witness for C9: a marker-free units string is unchanged, and a string
    with one marker gets exactly that marker rewritten. -/
theorem degree_fix_witness :
    fixDegrees (codes "mV") = codes "mV" ∧
    fixDegrees (codes " " ++ codes "^C" ++ codes "x") =
      codes " " ++ codes "°C" ++ fixDegrees (codes "x") :=
  ⟨degree_fix.1 (codes "mV") (by decide),
   degree_fix.2 (codes " ") (codes "x") (by decide)⟩

/-! ## Header-once invariant of the durable sink -/

/-- The store invariant: the header is the first row and occurs once. -/
def goodStore (s : Store) : Prop :=
  s.head? = some header ∧ s.count header = 1

theorem modeGet_ne_mode (n : Nat) : modeGet n ≠ codes "mode" := by
  rcases modeGet_vals n with h | h
  · rw [h]; decide
  · intro heq
    rw [heq] at h
    exact absurd h (by decide)

theorem parse_frame_mode (data : List Nat) (r : DMMRecord)
    (h : parse_frame data = some r) :
    ∃ n rest0, data = n :: rest0 ∧ n ∈ first_byte_chars ∧ r.mode = modeGet n := by
  cases data with
  | nil => simp [parse_frame] at h
  | cons n rest0 =>
    simp only [parse_frame] at h
    by_cases hn : n ∈ first_byte_chars
    · rw [if_pos hn] at h
      obtain rfl := Option.some.inj h
      exact ⟨n, rest0, rfl, hn, rfl⟩
    · rw [if_neg hn] at h
      exact absurd h (by simp)

theorem rowOf_ne_header (d t : List Nat) (r : DMMRecord)
    (h : r.mode ≠ codes "mode") : rowOf d t r ≠ header := by
  intro he
  simp only [rowOf, header, List.cons.injEq] at he
  exact h he.2.2.1

theorem cycle_of_read_none (store : Store) (line d t : List Nat)
    (h : read_data_from_serial line = none) : cycle store line d t = store := by
  unfold cycle
  rw [h]

theorem cycle_of_read_some (store : Store) (line d t data : List Nat)
    (h : read_data_from_serial line = some data) :
    cycle store line d t = cycleData store data d t := by
  unfold cycle
  rw [h]

theorem cycleData_of_parse_none (store : Store) (data d t : List Nat)
    (h : parse_frame data = none) : cycleData store data d t = store := by
  unfold cycleData
  rw [h]

theorem cycleData_of_parse_some (store : Store) (data d t : List Nat) (r : DMMRecord)
    (h : parse_frame data = some r) : cycleData store data d t = store ++ [rowOf d t r] := by
  unfold cycleData
  rw [h]

theorem cycle_good (store : Store) (line d t : List Nat) (h : goodStore store) :
    goodStore (cycle store line d t) := by
  cases hr : read_data_from_serial line with
  | none => rw [cycle_of_read_none store line d t hr]; exact h
  | some data =>
    rw [cycle_of_read_some store line d t data hr]
    cases hp : parse_frame data with
    | none => rw [cycleData_of_parse_none store data d t hp]; exact h
    | some r =>
      rw [cycleData_of_parse_some store data d t r hp]
      obtain ⟨n, rest0, _, hn, hmode⟩ := parse_frame_mode data r hp
      have hne : rowOf d t r ≠ header :=
        rowOf_ne_header d t r (by rw [hmode]; exact modeGet_ne_mode n)
      obtain ⟨hh, hc⟩ := h
      constructor
      · cases store with
        | nil => simp at hh
        | cons x s' => simpa using hh
      · rw [List.count_append, hc]
        have h0 : List.count header [rowOf d t r] = 0 := by
          rw [List.count_eq_zero]
          intro hx
          rcases List.mem_singleton.mp hx with he
          exact hne he.symm
        rw [h0]

theorem openStore_good (s : Store) (h : goodStore s) : goodStore (openStore s) := by
  have hs : s ≠ [] := by
    intro he
    rw [he] at h
    exact absurd h.1 (by simp)
  unfold openStore
  rw [if_neg hs]
  exact h

theorem goodStore_init : goodStore (openStore []) := by
  constructor <;> decide

theorem foldl_preserve {σ α : Type} (P : σ → Prop) (f : σ → α → σ)
    (hf : ∀ s a, P s → P (f s a)) :
    ∀ (l : List α) (s : σ), P s → P (l.foldl f s) := by
  intro l
  induction l with
  | nil => intro s hs; exact hs
  | cons x xs ih => intro s hs; exact ih (f s x) (hf s x hs)

theorem runSession_good (s : Store) (inputs : List (List Nat × List Nat × List Nat))
    (h : goodStore s) : goodStore (runSession s inputs) :=
  foldl_preserve goodStore cycleStep
    (fun st inp hst => cycle_good st inp.1 inp.2.1 inp.2.2 hst)
    inputs (openStore s) (openStore_good s h)

/-- C3: The header row is written iff the store is empty at open time
    (before any data row), reopening a non-empty store never writes a
    second header, and every store reachable by a sequence of program runs
    starts with the header row and contains it exactly once. -/
theorem header_once :
    openStore [] = [header] ∧
    (∀ s : Store, s ≠ [] → openStore s = s) ∧
    (∀ sessions, sessions ≠ [] →
      (runProgram sessions).head? = some header ∧
      (runProgram sessions).count header = 1) := by
  refine ⟨by decide, ?_, ?_⟩
  · intro s hs
    unfold openStore
    rw [if_neg hs]
  · intro sessions hne
    cases sessions with
    | nil => exact absurd rfl hne
    | cons s0 rest =>
      have h0 : goodStore (runSession [] s0) :=
        foldl_preserve goodStore cycleStep
          (fun st inp hst => cycle_good st inp.1 inp.2.1 inp.2.2 hst)
          s0 (openStore []) goodStore_init
      have : goodStore (runProgram (s0 :: rest)) := by
        simp only [runProgram, List.foldl_cons]
        exact foldl_preserve goodStore runSession
          (fun st inp hst => runSession_good st inp hst) rest (runSession [] s0) h0
      exact this

/-- Witness for C3: reopening a store holding just the header changes
    nothing, and a single run with no cycles yields exactly one header. -/
theorem header_once_witness :
    openStore [header] = [header] ∧
    (runProgram [[]]).head? = some header ∧
    (runProgram [[]]).count header = 1 :=
  ⟨header_once.2.1 [header] (by decide),
   (header_once.2.2 [[]] (by simp)).1,
   (header_once.2.2 [[]] (by simp)).2⟩

/-! ## The UNKNOWN sentinel is unreachable in persisted rows -/

/-- C10: Every row the cycle appends to the store carries, in its mode
    field, one of the eight mode names of MODE_MAP's range, and never the
    UNKNOWN sentinel: the gate admits only frames whose first character is
    a MODE_MAP key, for which the lookup cannot miss. -/
theorem unknown_unreachable :
    ∀ (store : Store) (line d t : List Nat) (row : Row),
      cycle store line d t = store ++ [row] →
      ∃ m, row.get? 2 = some m ∧
        m ∈ [codes "AC", codes "DIO", codes "CAP", codes "DC", codes "FR",
              codes "IND", codes "RES", codes "TEMP"] ∧
        m ≠ codes "UNKNOWN" := by
  intro store line d t row h
  have hkey : ∀ m ∈ first_byte_chars,
      modeGet m ∈ [codes "AC", codes "DIO", codes "CAP", codes "DC", codes "FR",
                   codes "IND", codes "RES", codes "TEMP"] ∧
      modeGet m ≠ codes "UNKNOWN" := by decide
  cases hr : read_data_from_serial line with
  | none =>
    rw [cycle_of_read_none store line d t hr] at h
    have := congrArg List.length h
    simp at this
  | some data =>
    rw [cycle_of_read_some store line d t data hr] at h
    cases hp : parse_frame data with
    | none =>
      rw [cycleData_of_parse_none store data d t hp] at h
      have := congrArg List.length h
      simp at this
    | some r =>
      rw [cycleData_of_parse_some store data d t r hp] at h
      have hrow : rowOf d t r = row := by
        have h1 := List.append_cancel_left h
        simpa using h1
      obtain ⟨n, rest0, _, hn, hmode⟩ := parse_frame_mode data r hp
      refine ⟨r.mode, ?_, ?_, ?_⟩
      · rw [← hrow]; rfl
      · rw [hmode]; exact (hkey n hn).1
      · rw [hmode]; exact (hkey n hn).2

/-- Witness for C10: the frame D1V followed by the terminator is accepted
    and persists a row whose mode field is DC. -/
theorem unknown_unreachable_witness :
    ∃ m, ([codes "d", codes "t", codes "DC", codes "1", codes "V"] : Row).get? 2 = some m ∧
      m ∈ [codes "AC", codes "DIO", codes "CAP", codes "DC", codes "FR",
            codes "IND", codes "RES", codes "TEMP"] ∧
      m ≠ codes "UNKNOWN" :=
  unknown_unreachable [] [68, 49, 86, 13] (codes "d") (codes "t")
    [codes "d", codes "t", codes "DC", codes "1", codes "V"] (by decide)

/-! ## Whitespace stripping lemmas -/

theorem dropWhile_idem (p : Nat → Bool) (l : List Nat) :
    (l.dropWhile p).dropWhile p = l.dropWhile p := by
  induction l with
  | nil => rfl
  | cons x xs ih =>
    by_cases hx : p x
    · rw [List.dropWhile_cons_of_pos hx]
      exact ih
    · rw [List.dropWhile_cons_of_neg hx, List.dropWhile_cons_of_neg hx]

theorem dropWhile_append_single (p : Nat → Bool) (w : List Nat) (x : Nat)
    (hx : p x = false) : (w ++ [x]).dropWhile p = w.dropWhile p ++ [x] := by
  induction w with
  | nil => simp [List.dropWhile_cons, hx]
  | cons y w' ih =>
    by_cases hy : p y
    · simpa [List.dropWhile_cons_of_pos hy] using ih
    · simp [List.dropWhile_cons_of_neg hy]

theorem rstrip_cons_of_neg (x : Nat) (v : List Nat) (hx : isSpace x = false) :
    rstrip (x :: v) = x :: rstrip v := by
  unfold rstrip
  rw [List.reverse_cons, dropWhile_append_single isSpace v.reverse x hx,
    List.reverse_append]
  simp

theorem lstrip_head_false (x : Nat) (v : List Nat) (h : lstrip (x :: v) = x :: v) :
    isSpace x = false := by
  by_contra hx
  rw [Bool.not_eq_false] at hx
  rw [lstrip, List.dropWhile_cons_of_pos hx] at h
  have hlen := congrArg List.length h
  have hle : (List.dropWhile isSpace v).length ≤ v.length :=
    (List.dropWhile_suffix isSpace).sublist.length_le
  rw [List.length_cons] at hlen
  omega

theorem lstrip_idem (s : List Nat) : lstrip (lstrip s) = lstrip s :=
  dropWhile_idem isSpace s

theorem rstrip_idem (s : List Nat) : rstrip (rstrip s) = rstrip s := by
  unfold rstrip
  rw [List.reverse_reverse, dropWhile_idem]

theorem lstrip_rstrip (u : List Nat) (hu : lstrip u = u) :
    lstrip (rstrip u) = rstrip u := by
  cases u with
  | nil => rfl
  | cons x v =>
    have hx : isSpace x = false := lstrip_head_false x v hu
    rw [rstrip_cons_of_neg x v hx]
    rw [lstrip, List.dropWhile_cons_of_neg (by simp [hx])]

theorem strip_idem (s : List Nat) : strip (strip s) = strip s := by
  unfold strip
  rw [lstrip_rstrip (lstrip s) (lstrip_idem s), rstrip_idem]

theorem mem_of_mem_dropWhile {p : Nat → Bool} {b : Nat} {l : List Nat}
    (h : b ∈ l.dropWhile p) : b ∈ l := by
  induction l with
  | nil => simp at h
  | cons x xs ih =>
    by_cases hx : p x
    · rw [List.dropWhile_cons_of_pos hx] at h
      exact List.mem_cons_of_mem x (ih h)
    · rwa [List.dropWhile_cons_of_neg hx] at h

theorem mem_of_mem_strip {b : Nat} {s : List Nat} (h : b ∈ strip s) : b ∈ s := by
  unfold strip rstrip lstrip at h
  have h1 := mem_of_mem_dropWhile (List.mem_reverse.mp h)
  exact mem_of_mem_dropWhile (List.mem_reverse.mp h1)

/-! ## Decoding totality -/

theorem read_concat (bs : List Nat) :
    read_data_from_serial (bs ++ [13]) =
      some (strip (bs.filter (fun b => b < 128))) := by
  unfold read_data_from_serial
  rw [List.getLast?_concat, List.dropLast_concat]
  simp

/-- C7: Frame decoding is total: every terminator-ended byte sequence
    decodes to Some text; bytes outside ASCII are dropped, so the decode
    result only depends on (and only contains) the bytes below 128; and
    every decoded frame text is whitespace-trimmed. -/
theorem decode_total :
    (∀ bs : List Nat,
      read_data_from_serial (bs ++ [13]) =
        some (strip (bs.filter (fun b => b < 128)))) ∧
    (∀ bs1 bs2 : List Nat,
      bs1.filter (fun b => b < 128) = bs2.filter (fun b => b < 128) →
      read_data_from_serial (bs1 ++ [13]) = read_data_from_serial (bs2 ++ [13])) ∧
    (∀ line data : List Nat, read_data_from_serial line = some data →
      (∀ b ∈ data, b < 128) ∧ strip data = data) := by
  refine ⟨read_concat, ?_, ?_⟩
  · intro bs1 bs2 hf
    rw [read_concat, read_concat, hf]
  · intro line data h
    unfold read_data_from_serial at h
    split at h
    · have hdata := Option.some.inj h
      constructor
      · intro b hb
        rw [← hdata] at hb
        have hbf := mem_of_mem_strip hb
        have := List.mem_filter.mp hbf
        simpa using this.2
      · rw [← hdata, strip_idem]
    · exact absurd h (by simp)

/-- Witness for C7: a high byte interleaved before the payload byte and one
    appended after it decode to the same frame text, and a decoded frame
    text is ASCII and trimmed. -/
theorem decode_total_witness :
    read_data_from_serial ([200, 65] ++ [13]) =
      read_data_from_serial ([65, 255] ++ [13]) ∧
    (∀ b ∈ [65], b < 128) ∧ strip [65] = [65] :=
  ⟨decode_total.2.1 [200, 65] [65, 255] (by decide),
   (decode_total.2.2 [65, 13] [65] (by decide)).1,
   (decode_total.2.2 [65, 13] [65] (by decide)).2⟩

/-! ## No-match fallback -/

/-- C8: When no literal or numeric token matches anywhere in the payload,
    the parser still produces a record whose reading is empty and whose
    units are the whole trimmed payload (run through the degree-marker
    rewrite like every units value), and the cycle still appends it. -/
theorem no_match_fallback :
    ∀ (store : Store) (data d t : List Nat) (n : Nat) (rest : List Nat),
      data = n :: rest → n ∈ first_byte_chars →
      reading_search (strip rest) = none →
      parse_frame data = some ⟨modeGet n, [], fixDegrees (strip rest)⟩ ∧
      strip (strip rest) = strip rest ∧
      cycleData store data d t =
        store ++ [rowOf d t ⟨modeGet n, [], fixDegrees (strip rest)⟩] := by
  intro store data d t n rest hdata hn hsearch
  subst hdata
  have hex : extractReading (strip rest) = ([], strip rest) := by
    unfold extractReading
    rw [hsearch, strip_idem]
  have hp : parse_frame (n :: rest) = some ⟨modeGet n, [], fixDegrees (strip rest)⟩ := by
    simp only [parse_frame]
    rw [if_pos hn]
    simp only [hex]
  exact ⟨hp, strip_idem rest, cycleData_of_parse_some store _ d t _ hp⟩

/-- Witness for C8: the payload of the frame D{sp}@@{sp} matches no token,
    yet a record with empty reading and units @@ is appended. -/
theorem no_match_fallback_witness :
    parse_frame (68 :: codes " @@ ") =
      some ⟨modeGet 68, [], fixDegrees (strip (codes " @@ "))⟩ ∧
    strip (strip (codes " @@ ")) = strip (codes " @@ ") ∧
    cycleData [] (68 :: codes " @@ ") (codes "d") (codes "t") =
      [] ++ [rowOf (codes "d") (codes "t") ⟨modeGet 68, [], fixDegrees (strip (codes " @@ "))⟩] :=
  no_match_fallback [] (68 :: codes " @@ ") (codes "d") (codes "t") 68 (codes " @@ ")
    rfl (by decide) (by decide)

/-! ## Durability ordering over the event trace -/

theorem cycleEvents_accepted (line data : List Nat) (r : DMMRecord)
    (hr : read_data_from_serial line = some data) (hp : parse_frame data = some r) :
    cycleEvents line =
      [Event.trigger, Event.readFrame, Event.writeRow, Event.flushStore, Event.doSleep] := by
  unfold cycleEvents
  rw [hr]
  simp only [frameEvents]
  rw [hp]
  rfl

theorem cycleEvents_balanced (line : List Nat) :
    (cycleEvents line).count Event.writeRow = (cycleEvents line).count Event.flushStore := by
  cases hr : read_data_from_serial line with
  | none => unfold cycleEvents; rw [hr]; decide
  | some data =>
    cases hp : parse_frame data with
    | none =>
      unfold cycleEvents
      rw [hr]
      simp only [frameEvents]
      rw [hp]
      decide
    | some r => rw [cycleEvents_accepted line data r hr hp]; decide

theorem trigger_not_mem_tail (line : List Nat) :
    Event.trigger ∉ (cycleEvents line).tail := by
  cases hr : read_data_from_serial line with
  | none => unfold cycleEvents; rw [hr]; decide
  | some data =>
    cases hp : parse_frame data with
    | none =>
      unfold cycleEvents
      rw [hr]
      simp only [frameEvents]
      rw [hp]
      decide
    | some r => rw [cycleEvents_accepted line data r hr hp]; decide

theorem split_on_trigger :
    ∀ (a b pre post : List Event),
      a ++ b = pre ++ Event.trigger :: post → Event.trigger ∉ a →
      ∃ mid, pre = a ++ mid ∧ b = mid ++ Event.trigger :: post := by
  intro a
  induction a with
  | nil =>
    intro b pre post h _
    exact ⟨pre, by simp, by simpa using h⟩
  | cons x a' ih =>
    intro b pre post h hmem
    cases pre with
    | nil =>
      simp only [List.nil_append, List.cons_append] at h
      injection h with h1 _
      rw [h1] at hmem
      exact absurd (List.mem_cons_self _ _) hmem
    | cons y pre' =>
      simp only [List.cons_append] at h
      injection h with h1 h2
      obtain ⟨mid, hp1, hp2⟩ :=
        ih b pre' post h2 (fun hm => hmem (List.mem_cons_of_mem x hm))
      subst h1
      exact ⟨mid, by rw [hp1, List.cons_append], hp2⟩

theorem loop_balanced :
    ∀ (lines : List (List Nat)) (pre post : List Event),
      loopEvents lines = pre ++ Event.trigger :: post →
      pre.count Event.writeRow = pre.count Event.flushStore := by
  intro lines
  induction lines with
  | nil =>
    intro pre post h
    simp only [loopEvents, List.flatMap_nil] at h
    exact absurd h.symm (by simp)
  | cons l ls ih =>
    intro pre post h
    obtain ⟨tl, htl⟩ : ∃ tl, cycleEvents l = Event.trigger :: tl := ⟨_, rfl⟩
    have hle : loopEvents (l :: ls) = cycleEvents l ++ loopEvents ls := rfl
    rw [hle, htl, List.cons_append] at h
    cases pre with
    | nil => rfl
    | cons x pre' =>
      rw [List.cons_append] at h
      injection h with h1 h2
      have htr : Event.trigger ∉ tl := by
        have hm := trigger_not_mem_tail l
        rw [htl] at hm
        simpa using hm
      obtain ⟨mid, hpre', hloop⟩ := split_on_trigger tl (loopEvents ls) pre' post h2 htr
      have hmid := ih mid post hloop
      have htlc : tl.count Event.writeRow = tl.count Event.flushStore := by
        have hb := cycleEvents_balanced l
        rw [htl] at hb
        simpa [List.count_cons] using hb
      subst h1
      rw [hpre']
      have hw : (Event.trigger == Event.writeRow) = false := by decide
      have hf : (Event.trigger == Event.flushStore) = false := by decide
      simp [List.count_cons, List.count_append, hw, hf, htlc, hmid]

/-- C5: In every accepted cycle the row write and the flush happen, in that
    order, after the read and before the sleep that precedes the next
    trigger; and in the event trace of any run of the loop, at every point
    where a trigger byte is sent, the writes so far are matched one-to-one
    by completed flushes. -/
theorem durability_order :
    (∀ (line data : List Nat) (r : DMMRecord),
      read_data_from_serial line = some data → parse_frame data = some r →
      cycleEvents line =
        [Event.trigger, Event.readFrame, Event.writeRow, Event.flushStore,
         Event.doSleep]) ∧
    (∀ (lines : List (List Nat)) (pre post : List Event),
      loopEvents lines = pre ++ Event.trigger :: post →
      pre.count Event.writeRow = pre.count Event.flushStore) :=
  ⟨cycleEvents_accepted, loop_balanced⟩

/-- Witness for C5: the accepted frame D1 gives the write-flush-sleep
    cycle shape, and before the second cycle's trigger the one write is
    matched by one flush. -/
theorem durability_order_witness :
    cycleEvents [68, 49, 13] =
      [Event.trigger, Event.readFrame, Event.writeRow, Event.flushStore,
       Event.doSleep] ∧
    ([Event.trigger, Event.readFrame, Event.writeRow, Event.flushStore,
      Event.doSleep] : List Event).count Event.writeRow =
    ([Event.trigger, Event.readFrame, Event.writeRow, Event.flushStore,
      Event.doSleep] : List Event).count Event.flushStore :=
  ⟨durability_order.1 [68, 49, 13] (codes "D1") ⟨codes "DC", codes "1", []⟩
      (by decide) (by decide),
   durability_order.2 [[68, 49, 13], [68, 49, 13]]
      [Event.trigger, Event.readFrame, Event.writeRow, Event.flushStore, Event.doSleep]
      [Event.readFrame, Event.writeRow, Event.flushStore, Event.doSleep]
      (by decide)⟩

/-! ## Port selection -/

theorem candFold (ports : List PortInfo) :
    ∀ acc, ports.foldl candStep acc =
      (ports.filter (fun p => passesFilter p && isFTDI p)).reverse ++ acc ++
      (ports.filter (fun p => passesFilter p && !isFTDI p)) := by
  induction ports with
  | nil => intro acc; simp
  | cons p ps ih =>
    intro acc
    rw [List.foldl_cons, ih (candStep acc p)]
    unfold candStep
    by_cases hf : passesFilter p
    · by_cases hd : isFTDI p
      · rw [if_pos hf, if_pos hd]
        simp [List.filter_cons, hf, hd]
      · rw [if_pos hf, if_neg hd]
        simp [List.filter_cons, hf, hd]
    · rw [if_neg hf]
      simp [List.filter_cons, hf]

theorem buildCandidates_eq (ports : List PortInfo) :
    buildCandidates ports =
      (ports.filter (fun p => passesFilter p && isFTDI p)).reverse ++
      (ports.filter (fun p => passesFilter p && !isFTDI p)) := by
  have h := candFold ports []
  simpa [buildCandidates] using h

theorem find_of_head (ports : List PortInfo) (p : PortInfo) (rest : List PortInfo)
    (h : buildCandidates (sortPorts ports) = p :: rest) :
    find_protek_port ports = Except.ok p.device := by
  unfold find_protek_port
  rw [h]

theorem find_of_empty (ports : List PortInfo)
    (h : buildCandidates (sortPorts ports) = []) :
    find_protek_port ports = Except.error (sortPorts ports) := by
  unfold find_protek_port
  rw [h]

/-- C1 counterexample: for the identifier-sorted, all-filtered enumeration
    [COM1 (FTDI), COM2 (plain), COM3 (FTDI)] the program selects COM3, the
    last priority candidate, not COM1, the first priority candidate: the
    insertion at the front of the candidate list reverses the priority
    group instead of stably partitioning it. -/
theorem port_selection_counterexample :
    isFTDI portA = true ∧ isFTDI portB = false ∧ isFTDI portC = true ∧
    passesFilter portA = true ∧ passesFilter portB = true ∧
    passesFilter portC = true ∧
    sortPorts [portA, portB, portC] = [portA, portB, portC] ∧
    find_protek_port [portA, portB, portC] = Except.ok portC.device ∧
    portC.device ≠ portA.device :=
  ⟨by decide, by decide, by decide, by decide, by decide, by decide, by decide,
   by rfl, by decide⟩

/-- C1 amended: candidates are the identifier-sorted filtered ports with
    the priority (FTDI) group moved to the front in reversed relative order
    (each priority candidate is inserted at the front as encountered) and
    the plain group kept stable behind it; the first candidate's device is
    selected, so in the spec's scenario the last priority candidate in
    identifier order wins; an empty candidate set fails with the whole
    enumeration as diagnostic. -/
theorem port_selection_amended :
    (∀ ports : List PortInfo,
      buildCandidates ports =
        (ports.filter (fun p => passesFilter p && isFTDI p)).reverse ++
        (ports.filter (fun p => passesFilter p && !isFTDI p))) ∧
    (∀ (ports : List PortInfo) (p : PortInfo) (rest : List PortInfo),
      buildCandidates (sortPorts ports) = p :: rest →
      find_protek_port ports = Except.ok p.device) ∧
    (∀ ports : List PortInfo,
      buildCandidates (sortPorts ports) = [] →
      find_protek_port ports = Except.error (sortPorts ports)) ∧
    find_protek_port [portA, portB, portC] = Except.ok (codes "COM3") :=
  ⟨buildCandidates_eq, find_of_head, find_of_empty, by rfl⟩

/-- Witness for the amended C1: the selection scenario resolves to COM3 and
    a non-serial-looking enumeration fails with the sorted diagnostic. -/
theorem port_selection_amended_witness :
    find_protek_port [portA, portB, portC] = Except.ok portC.device ∧
    find_protek_port [⟨codes "lp0", none, none⟩] =
      Except.error (sortPorts [⟨codes "lp0", none, none⟩]) :=
  ⟨port_selection_amended.2.1 [portA, portB, portC] portC [portA, portB] (by decide),
   port_selection_amended.2.2.1 [⟨codes "lp0", none, none⟩] (by decide)⟩

/-! ## Reading extraction: decomposition of successful matches -/

theorem numBody_decomp (s m r : List Nat) (h : numBody s = some (m, r)) :
    m ++ r = s := by
  unfold numBody at h
  split at h
  next c rest heq =>
    split at h
    · split at h
      · split at h
        · exact absurd h (by simp)
        · obtain ⟨rfl, rfl⟩ := Prod.mk.injEq .. ▸ Option.some.inj h
          exact List.takeWhile_append_dropWhile isDigit s
      · obtain ⟨rfl, rfl⟩ := Prod.mk.injEq .. ▸ Option.some.inj h
        calc (s.takeWhile isDigit ++ c :: rest.takeWhile isDigit) ++ rest.dropWhile isDigit
            = s.takeWhile isDigit ++ c :: (rest.takeWhile isDigit ++ rest.dropWhile isDigit) := by
              simp
          _ = s.takeWhile isDigit ++ (c :: rest) := by
              rw [List.takeWhile_append_dropWhile]
          _ = s.takeWhile isDigit ++ s.dropWhile isDigit := by rw [heq]
          _ = s := List.takeWhile_append_dropWhile isDigit s
    · split at h
      · exact absurd h (by simp)
      · obtain ⟨rfl, rfl⟩ := Prod.mk.injEq .. ▸ Option.some.inj h
        exact List.takeWhile_append_dropWhile isDigit s
  next heq =>
    split at h
    · exact absurd h (by simp)
    · obtain ⟨rfl, rfl⟩ := Prod.mk.injEq .. ▸ Option.some.inj h
      exact List.takeWhile_append_dropWhile isDigit s

theorem suffixStep_decomp (m r m2 r2 : List Nat) (h : suffixStep m r = some (m2, r2)) :
    m2 ++ r2 = m ++ r := by
  unfold suffixStep at h
  split at h
  next c2 rest2 =>
    split at h
    · obtain ⟨rfl, rfl⟩ := Prod.mk.injEq .. ▸ Option.some.inj h
      simp
    · obtain ⟨rfl, rfl⟩ := Prod.mk.injEq .. ▸ Option.some.inj h
      rfl
  next =>
    obtain ⟨rfl, rfl⟩ := Prod.mk.injEq .. ▸ Option.some.inj h
    rfl

theorem numAt_decomp (s m r : List Nat) (h : numAt s = some (m, r)) :
    m ++ r = s := by
  cases s with
  | nil =>
    have h0 : numAt ([] : List Nat) = none := rfl
    rw [h0] at h
    simp at h
  | cons c rest =>
    simp only [numAt] at h
    split at h
    · exact absurd h (by simp)
    next m1 r1 heq =>
      have hs := suffixStep_decomp m1 r1 m r h
      split at heq
      · cases hb : numBody rest with
        | none => rw [hb] at heq; exact absurd heq (by simp)
        | some p =>
          obtain ⟨bm, br⟩ := p
          rw [hb] at heq
          simp only [Option.map_some'] at heq
          obtain ⟨rfl, rfl⟩ := Prod.mk.injEq .. ▸ Option.some.inj heq
          rw [hs, List.cons_append, numBody_decomp rest bm br hb]
      · rw [hs, numBody_decomp (c :: rest) m1 r1 heq]

theorem litAtAux_decomp (toks : List (List Nat)) :
    ∀ s m r, litAtAux toks s = some (m, r) → m ++ r = s := by
  induction toks with
  | nil => intro s m r h; simp [litAtAux] at h
  | cons t ts ih =>
    intro s m r h
    simp only [litAtAux] at h
    by_cases hc : ciPre t s
    · rw [if_pos hc] at h
      obtain ⟨rfl, rfl⟩ := Prod.mk.injEq .. ▸ Option.some.inj h
      exact List.take_append_drop t.length s
    · rw [if_neg hc] at h
      exact ih s m r h

theorem litAt_decomp (s m r : List Nat) (h : litAt s = some (m, r)) : m ++ r = s :=
  litAtAux_decomp litTokens s m r h

theorem tryAt_decomp (s m r : List Nat) (h : tryAt s = some (m, r)) : m ++ r = s := by
  unfold tryAt at h
  split at h
  next r0 heq =>
    obtain rfl := Option.some.inj h
    exact numAt_decomp s m r heq
  next => exact litAt_decomp s m r h

/-! ## Reading extraction: the numeric branch fails at literal-token starts -/

theorem numBody_none (c : Nat) (rest : List Nat) (hd : isDigit c = false)
    (hdot : c = 46 → ∃ c2 r2, rest = c2 :: r2 ∧ isDigit c2 = false) :
    numBody (c :: rest) = none := by
  have hdw : (c :: rest).dropWhile isDigit = c :: rest :=
    List.dropWhile_cons_of_neg (by simp [hd])
  have htw : (c :: rest).takeWhile isDigit = [] :=
    List.takeWhile_cons_of_neg (by simp [hd])
  by_cases h46 : c = 46
  · obtain ⟨c2, r2, rfl, hd2⟩ := hdot h46
    have htw2 : (c2 :: r2).takeWhile isDigit = [] :=
      List.takeWhile_cons_of_neg (by simp [hd2])
    subst h46
    simp only [numBody, hdw, htw, htw2]
    simp
  · simp only [numBody, hdw, htw]
    rw [if_neg h46]
    simp

theorem numAt_none_plain (c : Nat) (rest : List Nat) (h45 : c ≠ 45) (h43 : c ≠ 43)
    (hb : numBody (c :: rest) = none) : numAt (c :: rest) = none := by
  simp only [numAt]
  rw [if_neg (by tauto : ¬(c = 45 ∨ c = 43)), hb]

theorem numAt_none_sign (c : Nat) (rest : List Nat) (hsc : c = 45 ∨ c = 43)
    (hb : numBody rest = none) : numAt (c :: rest) = none := by
  simp only [numAt]
  rw [if_pos hsc, hb]
  rfl

theorem foldCode_cases (n v : Nat) (h : foldCode n = v) :
    n = v ∨ (65 ≤ n ∧ n ≤ 90 ∧ n + 32 = v) := by
  unfold foldCode at h
  split at h
  next hc => exact Or.inr ⟨hc.1, hc.2, h⟩
  next => exact Or.inl h

theorem isDigit_false_of (n : Nat) (h : n < 48 ∨ 57 < n) : isDigit n = false := by
  simp only [isDigit, Bool.and_eq_false_iff, decide_eq_false_iff_not]
  omega

/-- A non-sign, non-dot, non-digit head defeats the numeric branch. -/
theorem numAt_none_other (c : Nat) (cs : List Nat)
    (hc : c ∈ ([72, 104, 76, 108, 79, 111, 83, 115] : List Nat)) :
    numAt (c :: cs) = none := by
  have hfacts : c ≠ 45 ∧ c ≠ 43 ∧ c ≠ 46 ∧ isDigit c = false := by
    refine ⟨?_, ?_, ?_, isDigit_false_of c ?_⟩ <;> (fin_cases hc <;> omega)
  exact numAt_none_plain c cs hfacts.1 hfacts.2.1
    (numBody_none c cs hfacts.2.2.2 (fun h46 => absurd h46 hfacts.2.2.1))

/-- A dot followed by a non-digit (the letter O of .OL) defeats the
    numeric branch. -/
theorem numAt_none_dot (c2 : Nat) (cs2 : List Nat) (hd2 : isDigit c2 = false) :
    numAt (46 :: c2 :: cs2) = none :=
  numAt_none_plain 46 (c2 :: cs2) (by omega) (by omega)
    (numBody_none 46 (c2 :: cs2) (by decide) (fun _ => ⟨c2, cs2, rfl, hd2⟩))

/-- A sign followed by a non-digit non-dot (as in -OL and ----) defeats the
    numeric branch. -/
theorem numAt_none_neg (c2 : Nat) (cs2 : List Nat) (hd2 : isDigit c2 = false)
    (h46 : c2 ≠ 46) : numAt (45 :: c2 :: cs2) = none :=
  numAt_none_sign 45 (c2 :: cs2) (Or.inl rfl)
    (numBody_none c2 cs2 hd2 (fun h => absurd h h46))

/-! ## Reading extraction: the literal and numeric branches never both
    match at the same position, so the alternation order is immaterial -/

theorem ciPre_cons (t : Nat) (ts s : List Nat) (h : ciPre (t :: ts) s = true) :
    ∃ c cs, s = c :: cs ∧ foldCode c = foldCode t ∧ ciPre ts cs = true := by
  cases s with
  | nil => simp [ciPre] at h
  | cons c cs =>
    simp only [ciPre, Bool.and_eq_true, beq_iff_eq] at h
    exact ⟨c, cs, rfl, h.1.symm, h.2⟩

theorem fold_of_eq (c v w : Nat) (hvw : v + 32 = w) (h : foldCode c = w) :
    c = v ∨ c = w := by
  rcases foldCode_cases c w h with h1 | h1 <;> omega

theorem litAt_numAt_none (s m r : List Nat) (h : litAt s = some (m, r)) :
    numAt s = none := by
  have htk : litTokens =
      [[46, 79, 76], [45, 79, 76], [79, 76], [79, 80, 69, 78],
       [83, 72, 79, 82, 84], [72, 105, 103, 104], [76, 111, 119],
       [45, 45, 45, 45]] := by decide
  unfold litAt at h
  rw [htk] at h
  simp only [litAtAux] at h
  by_cases h1 : ciPre [46, 79, 76] s
  · obtain ⟨c, cs, rfl, hf, hrest⟩ := ciPre_cons 46 _ s h1
    obtain ⟨c2, cs2, rfl, hf2, _⟩ := ciPre_cons 79 _ cs hrest
    have hc : c = 46 := by
      rcases foldCode_cases c 46 (by rw [hf]; decide) with h0 | h0 <;> omega
    have hc2 : c2 = 79 ∨ c2 = 111 :=
      fold_of_eq c2 79 111 (by omega) (by rw [hf2]; decide)
    subst hc
    exact numAt_none_dot c2 cs2 (isDigit_false_of c2 (by omega))
  by_cases h2 : ciPre [45, 79, 76] s
  · obtain ⟨c, cs, rfl, hf, hrest⟩ := ciPre_cons 45 _ s h2
    obtain ⟨c2, cs2, rfl, hf2, _⟩ := ciPre_cons 79 _ cs hrest
    have hc : c = 45 := by
      rcases foldCode_cases c 45 (by rw [hf]; decide) with h0 | h0 <;> omega
    have hc2 : c2 = 79 ∨ c2 = 111 :=
      fold_of_eq c2 79 111 (by omega) (by rw [hf2]; decide)
    subst hc
    exact numAt_none_neg c2 cs2 (isDigit_false_of c2 (by omega)) (by omega)
  by_cases h3 : ciPre [79, 76] s
  · obtain ⟨c, cs, rfl, hf, _⟩ := ciPre_cons 79 _ s h3
    have hc : c = 79 ∨ c = 111 :=
      fold_of_eq c 79 111 (by omega) (by rw [hf]; decide)
    exact numAt_none_other c cs (by rcases hc with h0 | h0 <;> simp [h0])
  by_cases h4 : ciPre [79, 80, 69, 78] s
  · obtain ⟨c, cs, rfl, hf, _⟩ := ciPre_cons 79 _ s h4
    have hc : c = 79 ∨ c = 111 :=
      fold_of_eq c 79 111 (by omega) (by rw [hf]; decide)
    exact numAt_none_other c cs (by rcases hc with h0 | h0 <;> simp [h0])
  by_cases h5 : ciPre [83, 72, 79, 82, 84] s
  · obtain ⟨c, cs, rfl, hf, _⟩ := ciPre_cons 83 _ s h5
    have hc : c = 83 ∨ c = 115 :=
      fold_of_eq c 83 115 (by omega) (by rw [hf]; decide)
    exact numAt_none_other c cs (by rcases hc with h0 | h0 <;> simp [h0])
  by_cases h6 : ciPre [72, 105, 103, 104] s
  · obtain ⟨c, cs, rfl, hf, _⟩ := ciPre_cons 72 _ s h6
    have hc : c = 72 ∨ c = 104 :=
      fold_of_eq c 72 104 (by omega) (by rw [hf]; decide)
    exact numAt_none_other c cs (by rcases hc with h0 | h0 <;> simp [h0])
  by_cases h7 : ciPre [76, 111, 119] s
  · obtain ⟨c, cs, rfl, hf, _⟩ := ciPre_cons 76 _ s h7
    have hc : c = 76 ∨ c = 108 :=
      fold_of_eq c 76 108 (by omega) (by rw [hf]; decide)
    exact numAt_none_other c cs (by rcases hc with h0 | h0 <;> simp [h0])
  by_cases h8 : ciPre [45, 45, 45, 45] s
  · obtain ⟨c, cs, rfl, hf, hrest⟩ := ciPre_cons 45 _ s h8
    obtain ⟨c2, cs2, rfl, hf2, _⟩ := ciPre_cons 45 _ cs hrest
    have hc : c = 45 := by
      rcases foldCode_cases c 45 (by rw [hf]; decide) with h0 | h0 <;> omega
    have hc2 : c2 = 45 := by
      rcases foldCode_cases c2 45 (by rw [hf2]; decide) with h0 | h0 <;> omega
    subst hc
    exact numAt_none_neg c2 cs2 (isDigit_false_of c2 (by omega)) (by omega)
  · rw [if_neg h1, if_neg h2, if_neg h3, if_neg h4, if_neg h5, if_neg h6,
      if_neg h7, if_neg h8] at h
    exact absurd h (by simp)

theorem tryAt_eq_spec (s : List Nat) : tryAt s = tryAtSpec s := by
  unfold tryAt tryAtSpec
  cases hn : numAt s with
  | some r0 =>
    cases hl : litAt s with
    | none => simp
    | some r1 =>
      obtain ⟨m, r⟩ := r1
      have h0 := litAt_numAt_none s m r hl
      rw [h0] at hn
      exact absurd hn (by simp)
  | none => cases hl : litAt s <;> simp [hn]

theorem search_eq_spec (s : List Nat) : reading_search s = readingSearchSpec s := by
  induction s with
  | nil => rfl
  | cons c rest ih =>
    simp only [reading_search, readingSearchSpec, tryAt_eq_spec]
    cases h : tryAtSpec (c :: rest) <;> simp [ih]

theorem search_decomp (s : List Nat) :
    ∀ m r, reading_search s = some (m, r) →
      ∃ pre, s = pre ++ m ++ r ∧ tryAt (m ++ r) = some (m, r) ∧
        ∀ j, j < pre.length → tryAt (List.drop j s) = none := by
  induction s with
  | nil => intro m r h; simp [reading_search] at h
  | cons c rest ih =>
    intro m r h
    simp only [reading_search] at h
    cases ht : tryAt (c :: rest) with
    | some p =>
      rw [ht] at h
      obtain rfl := Option.some.inj h
      have hd := tryAt_decomp (c :: rest) m r ht
      refine ⟨[], by simp [hd], by rw [hd]; exact ht, ?_⟩
      intro j hj
      simp at hj
    | none =>
      rw [ht] at h
      obtain ⟨pre, hdec, hmatch, hnone⟩ := ih m r h
      refine ⟨c :: pre, by simp [← hdec], hmatch, ?_⟩
      intro j hj
      cases j with
      | zero => simpa using ht
      | succ j0 =>
        rw [List.length_cons] at hj
        have := hnone j0 (by omega)
        simpa using this

/-- C2: Reading/units extraction.  The search takes the leftmost position
    at which either a literal token or a numeric token matches; everything
    before the match start is discarded, the matched text is the reading
    verbatim, and the text after the match, trimmed, becomes the units.
    The code tries the numeric branch first at each position while the spec
    gives the literal tokens precedence: the two scanners agree on every
    payload, because no position admits both a literal and a numeric match.
    The spec's three examples are checked concretely, leading zeros kept. -/
theorem reading_extraction :
    (∀ s, reading_search s = readingSearchSpec s) ∧
    (∀ s m r, reading_search s = some (m, r) →
      ∃ pre, s = pre ++ m ++ r ∧ tryAt (m ++ r) = some (m, r) ∧
        ∀ j, j < pre.length → tryAt (List.drop j s) = none) ∧
    extractReading (codes "007.50 V") = (codes "007.50", codes "V") ∧
    extractReading (codes "  OL  mV") = (codes "OL", codes "mV") ∧
    extractReading (codes "-1.234k Ohm") = (codes "-1.234k", codes "Ohm") :=
  ⟨search_eq_spec, search_decomp, by decide, by decide, by decide⟩

/-- Witness for C2: on the payload x5 the match is the numeric token 5 at
    position 1, the leading x is discarded. -/
theorem reading_extraction_witness :
    ∃ pre, codes "x5" = pre ++ [53] ++ [] ∧ tryAt ([53] ++ []) = some ([53], []) ∧
      ∀ j, j < pre.length → tryAt (List.drop j (codes "x5")) = none :=
  reading_extraction.2.1 (codes "x5") [53] [] (by decide)

end Protek506
